import Mathlib

/-!
# go-fortune: a verification development of `main.go`

A shallow embedding of the fortune server's loader, sampler and request
handlers, followed by the properties proved about them.

Conventions of the embedding:

* a Go `string` is the list of its bytes, written `GoString`;
* a Go runtime panic (slice bounds out of range, index out of range) is the
  `none` of an `Option` result;
* the value returned by `rand.Perm(len(fortune))` is an explicit argument
  `perm`; the theorems quantify over every permutation of the index range;
* the clock (`time.Now().MarshalText()`), the environment variable, the
  command line flag and the file system are explicit arguments.
-/

namespace GoFortune

/-- A Go string, as the sequence of its bytes. -/
abbrev GoString := List Char

/-! ## Constants (main.go, lines 21-29) -/

def FORTUNE : GoString := "FORTUNE".toList
def PARAM_NUM_FORTUNE : GoString := "count".toList
def DEFAULT_FORTUNE_FILE : GoString := "./fortune.txt".toList
def DEFAULT_STATIC_DIR : GoString := "./static".toList
def DEFAULT_PORT : Int := 3000
def DEFAULT_NUM_FORTUNE : GoString := "1".toList

def StatusOK : Nat := 200
def StatusCreated : Nat := 201
def StatusPermanentRedirect : Nat := 308
def StatusBadRequest : Nat := 400
def StatusNotFound : Nat := 404
def StatusInternalServerError : Nat := 500

/-! ## Library functions used by the program -/

/-- Go `strings.Count(s, sep)` for a one-byte separator. -/
def stringsCount (sep : Char) : GoString → Nat
  | [] => 0
  | c :: cs => (if c = sep then 1 else 0) + stringsCount sep cs

/-- Go `strings.Index(s, sep)` for a one-byte separator: the position of the
first occurrence, `none` standing for the result `-1`. -/
def stringsIndex (sep : Char) : GoString → Option Nat
  | [] => none
  | c :: cs => if c = sep then some 0 else (stringsIndex sep cs).map (· + 1)

/-- The loop of Go `strings.genSplit`: `n` is the number of iterations that
remain (`i < n`), `s` the rest of the input.  Each iteration cuts `s` at the
first separator; the loop ends with `a[i] = s`. -/
def genSplit (sep : Char) : Nat → GoString → List GoString
  | 0, s => [s]
  | n + 1, s =>
    match stringsIndex sep s with
    | none => [s]
    | some m => s.take m :: genSplit sep n (s.drop (m + 1))

/-- Go `strings.Split(s, sep)` for a one-byte separator:
`n = Count(s, sep) + 1` slots, hence `Count(s, sep)` loop iterations. -/
def stringsSplit (s : GoString) (sep : Char) : List GoString :=
  genSplit sep (stringsCount sep s) s

/-- Go `strings.Contains(s, substr)`. -/
def stringsContains : GoString → GoString → Bool
  | [], substr => substr.isEmpty
  | c :: cs, substr => substr.isPrefixOf (c :: cs) || stringsContains cs substr

/-- The two errors of `strconv`: `ErrSyntax` and `ErrRange`. -/
inductive ParseErr where
  | ErrSyntax
  | ErrRange
  deriving DecidableEq, Repr

/-- Go `strconv.NumError`: the failing function, the input and the error. -/
structure NumError where
  Func : GoString
  Num : GoString
  Err : ParseErr
  deriving DecidableEq, Repr

/-- The digit loop of Go `strconv.ParseUint(s, 10, 64)`, `n` the value read so
far: a byte that is not a decimal digit is a syntax error, a value that leaves
the range of `uint64` a range error, whichever comes first. -/
def parseUintLoop : GoString → Nat → Except ParseErr Nat
  | [], n => .ok n
  | c :: cs, n =>
    if ¬ c.isDigit then .error .ErrSyntax
    else if n ≥ (2 ^ 64 - 1) / 10 + 1 then .error .ErrRange
    else if n * 10 + (c.toNat - 48) > 2 ^ 64 - 1 then .error .ErrRange
    else parseUintLoop cs (n * 10 + (c.toNat - 48))

/-- Go `strconv.ParseUint(s, 10, 64)`: the empty string is a syntax error. -/
def ParseUint (s : GoString) : Except ParseErr Nat :=
  if s = [] then .error .ErrSyntax else parseUintLoop s 0

/-- Go `strconv.Atoi` on a 64-bit platform, through `ParseInt(s, 10, 0)`: an
optional sign, then `ParseUint`, then the range of `int`.  (The fast path of
`Atoi` for inputs shorter than 19 bytes computes the same result.) -/
def Atoi (s : GoString) : Except NumError Int :=
  if s = [] then .error ⟨"Atoi".toList, s, .ErrSyntax⟩
  else
    let neg := s.head? = some '-'
    let body := if s.head? = some '+' ∨ s.head? = some '-' then s.tail else s
    match ParseUint body with
    | .error e => .error ⟨"Atoi".toList, s, e⟩
    | .ok un =>
      if ¬ neg ∧ un ≥ 2 ^ 63 then .error ⟨"Atoi".toList, s, .ErrRange⟩
      else if neg ∧ un > 2 ^ 63 then .error ⟨"Atoi".toList, s, .ErrRange⟩
      else .ok (if neg then -(un : Int) else (un : Int))

/-! ## Responses -/

/-- A value stored in a `gin.H` map. -/
inductive JValue where
  | str (s : GoString)
  | strs (l : List GoString)
  | err (e : NumError)
  deriving DecidableEq, Repr

/-- What a handler writes to the `gin.Context`. -/
inductive Response where
  | json (status : Nat) (body : List (GoString × JValue))
  | html (status : Nat) (name : GoString) (data : List (GoString × JValue))
  | redirect (status : Nat) (location : GoString)
  deriving DecidableEq, Repr

/-- The status code of a response. -/
def Response.status : Response → Nat
  | .json s _ => s
  | .html s _ _ => s
  | .redirect s _ => s

/-! ## The request, the environment and the file system -/

/-- Keys and values: the query parameters of a request, the fields of its
form, or the variables of the process environment. -/
abbrev Values := List (GoString × GoString)

/-- The first value stored for `key`, if there is one. -/
def Values.get (vs : Values) (key : GoString) : Option GoString :=
  (vs.find? (fun e => e.1 = key)).map (·.2)

/-- `os.LookupEnv(key)`: the value and whether the variable is present. -/
def LookupEnv (env : Values) (key : GoString) : Option GoString :=
  env.get key

/-- The regular files of the file system: path and content. -/
abbrev FileSystem := List (GoString × GoString)

/-- Content of the file at `path`, if there is one. -/
def FileSystem.read (fs : FileSystem) (path : GoString) : Option GoString :=
  (fs.find? (fun e => e.1 = path)).map (·.2)

/-- Replace the content of every entry for `path`. -/
def FileSystem.write (fs : FileSystem) (path content : GoString) : FileSystem :=
  fs.map (fun e => if e.1 = path then (e.1, content) else e)

/-! ## Corpus loader (main.go, lines 31-39) -/

/-- The pure part of `loadFortunes`: split the bytes read on "\n" and return
`lines[:len(lines)-1]`.  `strings.Split` returns at least one element, so the
slice expression is always in range. -/
def splitFortunes (buff : GoString) : List GoString :=
  let lines := stringsSplit buff '\n'
  lines.take (lines.length - 1)

/-- `loadFortunes(path)`: `none` is the `log.Fatalf` exit on a read error. -/
def loadFortunes (fs : FileSystem) (path : GoString) : Option (List GoString) :=
  match fs.read path with
  | none => none
  | some buff => some (splitFortunes buff)

/-! ## Configuration (main.go, lines 48-55 and 122-141) -/

/-- `defaultFortune()`: the value of the environment variable `FORTUNE` when
it is present, else the default path. -/
def defaultFortune (env : Values) : GoString :=
  match LookupEnv env FORTUNE with
  | some value => value
  | none => DEFAULT_FORTUNE_FILE

/-- The variable `fortuneFile` of `main` after `flag.Parse()`: the value of
the flag `-fortune` when given, else the flag's default `defaultFortune()`. -/
def fortuneFile (env : Values) (flagFortune : Option GoString) : GoString :=
  match flagFortune with
  | some value => value
  | none => defaultFortune env

/-- The corpus `main` hands to the handlers: `loadFortunes(fortuneFile)`. -/
def mainFortunes (fs : FileSystem) (env : Values) (flagFortune : Option GoString) :
    Option (List GoString) :=
  loadFortunes fs (fortuneFile env flagFortune)

/-! ## Sampler (main.go, lines 66-74) -/

/-- The loop `for i := 0; i < count; i++ { f[i] = fortune[idx[i]] }`;
`k` counts the iterations that remain.  An index out of range panics. -/
def fillFortunes (fortune : List GoString) (idx : List Nat) :
    Nat → Nat → List GoString → Option (List GoString)
  | 0, _, f => some f
  | k + 1, i, f =>
    match idx[i]? with
    | none => none
    | some j =>
      match fortune[j]? with
      | none => none
      | some s => fillFortunes fortune idx k (i + 1) (f.set i s)

/-- `getFortunes(fortune, count)`, with `perm` the slice returned by
`rand.Perm(len(fortune))`.  The slice expression `[:count]` panics unless
`0 <= count <= cap`, and the capacity of the slice is its length. -/
def getFortunes (perm : List Nat) (fortune : List GoString) (count : Int) :
    Option (List GoString) :=
  if count < 0 ∨ (perm.length : Int) < count then none
  else
    let idx := perm.take count.toNat
    let f : List GoString := List.replicate count.toNat []
    fillFortunes fortune idx count.toNat 0 f

/-! ## Handlers (main.go, lines 76-120 and 171-193) -/

/-- `c.DefaultQuery(key, defaultValue)`: the first value of the query
parameter when the key is present, else the default. -/
def DefaultQuery (query : Values) (key defaultValue : GoString) : GoString :=
  match query.get key with
  | some v => v
  | none => defaultValue

/-- The handler returned by `mkHandler(fortunes)`, run on a request with the
query parameters `query`, at time `now`. -/
def mkHandler (fortunes : List GoString) (perm : List Nat)
    (query : Values) (now : GoString) : Option Response :=
  match Atoi (DefaultQuery query PARAM_NUM_FORTUNE DEFAULT_NUM_FORTUNE) with
  | .error err => some (.json StatusBadRequest [("error".toList, .err err)])
  | .ok count =>
    match getFortunes perm fortunes count with
    | none => none
    | some f =>
      some (.json StatusOK [("timestamp".toList, .str now), ("fortunes".toList, .strs f)])

/-- The handler returned by `mkMVCHandler(fortunes)`. -/
def mkMVCHandler (fortunes : List GoString) (perm : List Nat) : Option Response :=
  match getFortunes perm fortunes 1 with
  | none => none
  | some f =>
    match f[0]? with
    | none => none
    | some f0 => some (.html StatusOK "index".toList [("fortuneText".toList, .str f0)])

/-- `healthz`. -/
def healthz (now : GoString) : Response :=
  .json StatusOK [("timestamp".toList, .str now)]

/-- `notFound`, on a request whose header `Accept` is `accept` and whose
`c.Request.URL.String()` is `url`. -/
def notFound (accept url now : GoString) : Response :=
  if stringsContains accept "text/html".toList then
    .redirect StatusPermanentRedirect "/static/404.html".toList
  else
    .json StatusNotFound
      [("timestamp".toList, .str now),
       ("error".toList, .str ("Resource not found: ".toList ++ url))]

/-- Failures the operating system may inject into `addFortune`: an error of
`os.OpenFile` on an existing file, and an error of the write after `n` bytes
reached the file. -/
structure Faults where
  openErr : Option GoString
  writeErr : Option (Nat × GoString)
  deriving DecidableEq, Repr

/-- No injected failure. -/
def Faults.none : Faults := ⟨Option.none, Option.none⟩

/-- `c.PostForm(key)`: the first value of the form field, or the empty
string when the field is absent. -/
def PostForm (form : Values) (key : GoString) : GoString :=
  match form.get key with
  | some v => v
  | none => []

/-- `addFortune`: the response and the file system it leaves, on a request
with the form fields `form`, in the process environment `env`.  The file is
opened with `O_APPEND|O_WRONLY` and without `O_CREATE`, so a missing file is
an error. -/
def addFortune (env : Values) (fs : FileSystem) (faults : Faults)
    (form : Values) : Response × FileSystem :=
  let fortune := PostForm form "fortune".toList
  if fortune = [] then
    (.json StatusBadRequest [("error".toList, .str "Fortune cannot be empty".toList)], fs)
  else
    let path := defaultFortune env
    match fs.read path, faults.openErr with
    | none, _ =>
      (.json StatusInternalServerError
        [("error".toList, .str ("Error opening fortune file: open ".toList ++ path ++
          ": no such file or directory".toList))], fs)
    | some _, some e =>
      (.json StatusInternalServerError
        [("error".toList, .str ("Error opening fortune file: ".toList ++ e))], fs)
    | some old, none =>
      let data := fortune ++ ['\n']
      match faults.writeErr with
      | some (n, e) =>
        (.json StatusInternalServerError
          [("error".toList, .str ("Error writing to fortune file: ".toList ++ e))],
         fs.write path (old ++ data.take n))
      | none =>
        (.json StatusCreated [("message".toList, .str "Fortune added successfully".toList)],
         fs.write path (old ++ data))

/-- The state of the running server: the corpus captured by the sampling
handlers (`fortunes`, loaded by `main` from `fortuneFile`), the environment,
the flag `-fortune` of the command line, and the file system. -/
structure Server where
  fortunes : List GoString
  env : Values
  flagFortune : Option GoString
  fs : FileSystem
  deriving DecidableEq, Repr

/-- The backing source of a server: the path `main` loaded the corpus from. -/
def Server.backingFile (sv : Server) : GoString :=
  fortuneFile sv.env sv.flagFortune

/-- Reloading the corpus of a server from its backing source. -/
def Server.reload (sv : Server) : Option (List GoString) :=
  mainFortunes sv.fs sv.env sv.flagFortune

/-- One run of `addFortune` against the server state. -/
def Server.addFortune (sv : Server) (faults : Faults) (form : Values) :
    Response × Server :=
  let r := GoFortune.addFortune sv.env sv.fs faults form
  (r.1, { sv with fs := r.2 })

/-! ## Lemmas on the library functions -/

theorem stringsSplit_nil (sep : Char) : stringsSplit [] sep = [[]] := by
  simp [stringsSplit, stringsCount, genSplit]

theorem stringsSplit_cons_sep (sep : Char) (cs : GoString) :
    stringsSplit (sep :: cs) sep = [] :: stringsSplit cs sep := by
  simp [stringsSplit, stringsCount, genSplit, stringsIndex, Nat.add_comm]

theorem genSplit_ne_nil (sep : Char) (n : Nat) (s : GoString) : genSplit sep n s ≠ [] := by
  cases n with
  | zero => simp [genSplit]
  | succ n =>
    unfold genSplit
    cases stringsIndex sep s <;> simp

theorem stringsSplit_ne_nil (sep : Char) (s : GoString) : stringsSplit s sep ≠ [] :=
  genSplit_ne_nil sep _ s

theorem genSplit_cons_ne (sep c : Char) (hc : c ≠ sep) (n : Nat) (cs : GoString) :
    genSplit sep n (c :: cs) =
      ((genSplit sep n cs).headD [] |>.cons c) :: (genSplit sep n cs).tail := by
  cases n with
  | zero => simp [genSplit]
  | succ n =>
    simp only [genSplit, stringsIndex, if_neg hc]
    cases stringsIndex sep cs <;> simp

theorem stringsSplit_cons_ne (sep c : Char) (hc : c ≠ sep) (cs : GoString) :
    stringsSplit (c :: cs) sep =
      (c :: (stringsSplit cs sep).headD []) :: (stringsSplit cs sep).tail := by
  have h := genSplit_cons_ne sep c hc (stringsCount sep cs) cs
  simpa [stringsSplit, stringsCount, hc] using h

/-- Splitting distributes over a separator: the pieces of `a ++ sep :: b` are
the pieces of `a` followed by the pieces of `b`. -/
theorem stringsSplit_append_sep (sep : Char) (a b : GoString) :
    stringsSplit (a ++ sep :: b) sep = stringsSplit a sep ++ stringsSplit b sep := by
  induction a with
  | nil => simp [stringsSplit_cons_sep, stringsSplit_nil]
  | cons c a ih =>
    by_cases hc : c = sep
    · subst hc
      simp [stringsSplit_cons_sep, ih]
    · rw [List.cons_append, stringsSplit_cons_ne sep c hc, stringsSplit_cons_ne sep c hc, ih]
      have hne := stringsSplit_ne_nil sep a
      cases hsa : stringsSplit a sep with
      | nil => exact absurd hsa hne
      | cons h t => simp

/-- A string without the separator is its own single piece. -/
theorem stringsSplit_of_not_mem (sep : Char) (l : GoString) (h : sep ∉ l) :
    stringsSplit l sep = [l] := by
  induction l with
  | nil => exact stringsSplit_nil sep
  | cons c l ih =>
    have hc : c ≠ sep := fun e => h (by simp [e])
    have hl : sep ∉ l := fun e => h (List.mem_cons_of_mem _ e)
    rw [stringsSplit_cons_ne sep c hc, ih hl]
    simp

/-- The pieces of newline-terminated lines are the lines and one empty piece. -/
theorem stringsSplit_terminated (sep : Char) (lines : List GoString)
    (h : ∀ l ∈ lines, sep ∉ l) :
    stringsSplit (lines.flatMap (fun l => l ++ [sep])) sep = lines ++ [[]] := by
  induction lines with
  | nil => simp [stringsSplit_nil]
  | cons l ls ih =>
    have hl : sep ∉ l := h l (List.mem_cons_self _ _)
    have hls : ∀ x ∈ ls, sep ∉ x := fun x hx => h x (List.mem_cons_of_mem _ hx)
    rw [List.flatMap_cons, List.append_assoc, List.singleton_append,
      stringsSplit_append_sep, stringsSplit_of_not_mem sep l hl, ih hls]
    simp

/-- `strings.Contains` decides the substring relation. -/
theorem stringsContains_iff (s substr : GoString) :
    stringsContains s substr = true ↔ substr <:+: s := by
  induction s with
  | nil => simp [stringsContains, List.isEmpty_iff]
  | cons c cs ih =>
    simp only [stringsContains, Bool.or_eq_true, ih, List.isPrefixOf_iff_prefix]
    rw [List.infix_cons_iff]

/-! ## Lemmas on the sampler -/

/-- The loop invariant of `fillFortunes`: slots below `i` are kept, slots
from `i` on receive the fortune at the index stored there. -/
theorem fillFortunes_spec (fortune : List GoString) (idx : List Nat)
    (hidx : ∀ j ∈ idx, j < fortune.length) :
    ∀ (k i : Nat) (f : List GoString), i + k = idx.length → f.length = idx.length →
      ∃ r, fillFortunes fortune idx k i f = some r ∧ r.length = idx.length ∧
        (∀ m, m < i → r[m]? = f[m]?) ∧
        (∀ m, i ≤ m → m < idx.length → ∃ j, idx[m]? = some j ∧ r[m]? = fortune[j]?) := by
  intro k
  induction k with
  | zero =>
    intro i f hik hf
    refine ⟨f, rfl, hf, fun _ _ => rfl, ?_⟩
    intro m h1 h2
    omega
  | succ k ih =>
    intro i f hik hf
    have hi : i < idx.length := by omega
    have hj : idx[i] < fortune.length := hidx _ (List.getElem_mem hi)
    obtain ⟨r, hr, hlen, hlow, hhigh⟩ :=
      ih (i + 1) (f.set i fortune[idx[i]]) (by omega) (by simpa using hf)
    refine ⟨r, ?_, hlen, ?_, ?_⟩
    · simp only [fillFortunes, List.getElem?_eq_getElem hi, List.getElem?_eq_getElem hj]
      exact hr
    · intro m hm
      rw [hlow m (by omega), List.getElem?_set_ne (by omega)]
    · intro m h1 h2
      by_cases hmi : m = i
      · subst hmi
        refine ⟨idx[m], List.getElem?_eq_getElem hi, ?_⟩
        rw [hlow m (by omega), List.getElem?_set_self, List.getElem?_eq_getElem hj]
        · simp [hf, hi]
      · exact hhigh m (by omega) h2

/-- What `getFortunes` returns on a count in range, for a `perm` whose
entries are valid indices: the fortunes at the first `n` entries of `perm`. -/
theorem getFortunes_spec (perm : List Nat) (fortune : List GoString) (n : Nat)
    (hperm : ∀ j ∈ perm, j < fortune.length) (hn : n ≤ perm.length) :
    ∃ r, getFortunes perm fortune (n : Int) = some r ∧ r.length = n ∧
      r.map some = (perm.take n).map (fun j => fortune[j]?) := by
  have hlen : (perm.take n).length = n := by simp [hn]
  obtain ⟨r, hr, hrl, -, hhigh⟩ :=
    fillFortunes_spec fortune (perm.take n) (fun j hj => hperm j (List.mem_of_mem_take hj))
      n 0 (List.replicate n []) (by simp [hlen]) (by simp [hlen])
  refine ⟨r, ?_, by omega, ?_⟩
  · have hc : ¬ ((n : Int) < 0 ∨ (perm.length : Int) < (n : Int)) := by omega
    simp only [getFortunes, if_neg hc, Int.toNat_ofNat]
    exact hr
  · apply List.ext_getElem?
    intro m
    by_cases hm : m < n
    · obtain ⟨j, hj, hrm⟩ := hhigh m (Nat.zero_le _) (by omega)
      have hjl : j < fortune.length :=
        hperm j (List.mem_of_mem_take (List.getElem?_mem hj))
      rw [List.getElem?_map, List.getElem?_map, hj, hrm]
      simp [List.getElem?_eq_getElem hjl]
    · have h1 : r.length ≤ m := by omega
      have h2 : (perm.take n).length ≤ m := by omega
      rw [List.getElem?_map, List.getElem?_map, List.getElem?_eq_none h1,
        List.getElem?_eq_none h2]
      rfl

/-- A permutation of the index range has the length of the corpus, valid
entries and no repetition. -/
theorem perm_range_facts (perm : List Nat) (len : Nat) (h : perm.Perm (List.range len)) :
    perm.length = len ∧ (∀ j ∈ perm, j < len) ∧ perm.Nodup := by
  refine ⟨by simpa using h.length_eq, ?_, h.nodup_iff.mpr (List.nodup_range len)⟩
  intro j hj
  exact List.mem_range.mp (h.mem_iff.mp hj)

/-! ## The sampler on a valid count -/

/-- C1: for every corpus, every permutation `perm` of its indices and every
count `n` with `0 <= n <= len(corpus)`, `getFortunes` succeeds and returns
exactly `n` fortunes, each an entry of the corpus; for `n = 0` (also on an
empty corpus) the result is the empty sequence and not an error. -/
theorem getFortunes_count_and_membership (perm : List Nat) (fortune : List GoString)
    (n : Int) (hperm : perm.Perm (List.range fortune.length))
    (h0 : 0 ≤ n) (hn : n ≤ (fortune.length : Int)) :
    ∃ r, getFortunes perm fortune n = some r ∧ (r.length : Int) = n ∧
      (∀ s ∈ r, s ∈ fortune) ∧ (n = 0 → r = []) := by
  obtain ⟨hlen, hrange, -⟩ := perm_range_facts perm fortune.length hperm
  obtain ⟨k, rfl⟩ := Int.eq_ofNat_of_zero_le h0
  obtain ⟨r, hr, hrl, hmap⟩ := getFortunes_spec perm fortune k hrange (by omega)
  refine ⟨r, hr, by omega, ?_, ?_⟩
  · intro s hs
    have h1 : some s ∈ r.map some := List.mem_map_of_mem _ hs
    rw [hmap] at h1
    obtain ⟨j, -, hj⟩ := List.mem_map.mp h1
    exact List.getElem?_mem hj
  · intro hk
    have hk0 : k = 0 := by omega
    exact List.length_eq_zero.mp (by omega)

/-- An instance of `getFortunes_count_and_membership` at a concrete input. -/
theorem getFortunes_count_and_membership_witness :
    ∃ r, getFortunes [2, 0, 1] ["a".toList, "b".toList, "c".toList] 2 = some r ∧
      (r.length : Int) = 2 ∧
      (∀ s ∈ r, s ∈ ["a".toList, "b".toList, "c".toList]) ∧ ((2 : Int) = 0 → r = []) :=
  getFortunes_count_and_membership [2, 0, 1] ["a".toList, "b".toList, "c".toList] 2
    (by decide) (by decide) (by decide)

/-- C2: `getFortunes` samples without replacement.  For every corpus, every
permutation `perm` of its indices and every `n` with `0 <= n <= len(corpus)`,
the result holds `corpus[perm[0]], ..., corpus[perm[n-1]]`; the positions
`perm[0..n-1]` are pairwise distinct and in range, and when the corpus has no
duplicate entry the returned fortunes are pairwise distinct. -/
theorem getFortunes_without_replacement (perm : List Nat) (fortune : List GoString)
    (n : Int) (hperm : perm.Perm (List.range fortune.length))
    (h0 : 0 ≤ n) (hn : n ≤ (fortune.length : Int)) :
    ∃ r, getFortunes perm fortune n = some r ∧
      r.map some = (perm.take n.toNat).map (fun j => fortune[j]?) ∧
      (perm.take n.toNat).Nodup ∧ (∀ j ∈ perm.take n.toNat, j < fortune.length) ∧
      (fortune.Nodup → r.Nodup) := by
  obtain ⟨hlen, hrange, hnodup⟩ := perm_range_facts perm fortune.length hperm
  obtain ⟨k, rfl⟩ := Int.eq_ofNat_of_zero_le h0
  obtain ⟨r, hr, hrl, hmap⟩ := getFortunes_spec perm fortune k hrange (by omega)
  have hidx : (perm.take k).Nodup := hnodup.sublist (List.take_sublist k perm)
  have hin : ∀ j ∈ perm.take k, j < fortune.length :=
    fun j hj => hrange j (List.mem_of_mem_take hj)
  refine ⟨r, hr, by simpa using hmap, by simpa using hidx, by simpa using hin, ?_⟩
  intro hf
  have hm : ((perm.take k).map (fun j => fortune[j]?)).Nodup := by
    refine List.Nodup.map_on ?_ hidx
    intro x hx y hy hxy
    have hxl := hin x hx
    have hyl := hin y hy
    rw [List.getElem?_eq_getElem hxl, List.getElem?_eq_getElem hyl] at hxy
    exact (List.Nodup.getElem_inj_iff hf).mp (Option.some.inj hxy)
  rw [← hmap] at hm
  exact List.Nodup.of_map _ hm

/-- An instance of `getFortunes_without_replacement` at a concrete input. -/
theorem getFortunes_without_replacement_witness :
    ∃ r, getFortunes [1, 2, 0] ["x".toList, "y".toList, "z".toList] 2 = some r ∧
      r.map some = (([1, 2, 0] : List Nat).take (2 : Int).toNat).map
        (fun j => ["x".toList, "y".toList, "z".toList][j]?) ∧
      (([1, 2, 0] : List Nat).take (2 : Int).toNat).Nodup ∧
      (∀ j ∈ ([1, 2, 0] : List Nat).take (2 : Int).toNat,
        j < ["x".toList, "y".toList, "z".toList].length) ∧
      (["x".toList, "y".toList, "z".toList].Nodup → r.Nodup) :=
  getFortunes_without_replacement [1, 2, 0] ["x".toList, "y".toList, "z".toList] 2
    (by decide) (by decide) (by decide)

/-! ## The API handler on a count out of range -/

/-- Every count that parses to an integer below zero or above the size of the
corpus makes the handler panic: no response is written by the handler. -/
theorem mkHandler_panics_of_out_of_range (fortunes : List GoString) (perm : List Nat)
    (query : Values) (now : GoString) (n : Int)
    (hperm : perm.Perm (List.range fortunes.length))
    (hparse : Atoi (DefaultQuery query PARAM_NUM_FORTUNE DEFAULT_NUM_FORTUNE) = .ok n)
    (hn : n < 0 ∨ (fortunes.length : Int) < n) :
    mkHandler fortunes perm query now = none := by
  have hlen : perm.length = fortunes.length := (perm_range_facts perm _ hperm).1
  have hc : n < 0 ∨ (perm.length : Int) < n := by omega
  simp [mkHandler, hparse, getFortunes, hc]

/-- C3: on the corpus `["a"]` the counts `2` and `-1` parse, are out of range,
and the handler panics in `getFortunes` instead of writing a 4xx response;
a count that does not parse is answered with 400, a count in range with 200. -/
theorem mkHandler_count_out_of_range_eval :
    Atoi "2".toList = .ok 2 ∧ Atoi "-1".toList = .ok (-1) ∧
    mkHandler ["a".toList] [0] [("count".toList, "2".toList)] "T".toList = none ∧
    mkHandler ["a".toList] [0] [("count".toList, "-1".toList)] "T".toList = none ∧
    (mkHandler ["a".toList] [0] [("count".toList, "x".toList)] "T".toList).map Response.status
      = some StatusBadRequest ∧
    (mkHandler ["a".toList] [0] [("count".toList, "1".toList)] "T".toList).map Response.status
      = some StatusOK :=
  ⟨rfl, rfl, by decide, by decide, by decide, by decide⟩

/-! ## The loader -/

/-- The corpus of a file made of newline-terminated lines is the lines. -/
theorem splitFortunes_terminated (lines : List GoString) (h : ∀ l ∈ lines, '\n' ∉ l) :
    splitFortunes (lines.flatMap (fun l => l ++ ['\n'])) = lines := by
  simp [splitFortunes, stringsSplit_terminated '\n' lines h]

/-- C4: for every list of lines, none containing a newline, the file whose
content is each line followed by "\n" is loaded by `loadFortunes` as exactly
those lines, in file order, with no empty trailing entry. -/
theorem loadFortunes_newline_terminated (fs : FileSystem) (path : GoString)
    (lines : List GoString) (hnl : ∀ l ∈ lines, '\n' ∉ l)
    (hread : fs.read path = some (lines.flatMap (fun l => l ++ ['\n']))) :
    loadFortunes fs path = some lines := by
  simp [loadFortunes, hread, splitFortunes_terminated lines hnl]

/-- An instance of `loadFortunes_newline_terminated` at a concrete input. -/
theorem loadFortunes_newline_terminated_witness :
    loadFortunes [("f.txt".toList, "ab\n\ncd\n".toList)] "f.txt".toList
      = some ["ab".toList, [], "cd".toList] :=
  loadFortunes_newline_terminated [("f.txt".toList, "ab\n\ncd\n".toList)] "f.txt".toList
    ["ab".toList, [], "cd".toList] (by decide) (by decide)

/-- C5: the file content "a\nb", two non-empty lines and no final newline, is
loaded as the single fortune "a": the last line is dropped. -/
theorem loadFortunes_unterminated_eval :
    stringsSplit "a\nb".toList '\n' = ["a".toList, "b".toList] ∧
    loadFortunes [("./fortune.txt".toList, "a\nb".toList)] "./fortune.txt".toList
      = some ["a".toList] := by
  decide

/-- `strings.Split` returns one piece more than there are separators. -/
theorem stringsSplit_length (sep : Char) (s : GoString) :
    (stringsSplit s sep).length = stringsCount sep s + 1 := by
  induction s with
  | nil => simp [stringsSplit_nil, stringsCount]
  | cons c cs ih =>
    by_cases hc : c = sep
    · subst hc
      simp [stringsSplit_cons_sep, stringsCount, ih, Nat.add_comm]
    · rw [stringsSplit_cons_ne sep c hc]
      have hne := stringsSplit_ne_nil sep cs
      cases hsa : stringsSplit cs sep with
      | nil => exact absurd hsa hne
      | cons h t =>
        rw [hsa] at ih
        simpa [stringsCount, hc] using ih

theorem stringsCount_pos_of_mem (sep : Char) (s : GoString) (h : sep ∈ s) :
    0 < stringsCount sep s := by
  induction s with
  | nil => simp at h
  | cons c cs ih =>
    by_cases hc : c = sep
    · simp [stringsCount, hc]
    · have hcs : sep ∈ cs := by
        rcases List.mem_cons.mp h with h1 | h1
        · exact absurd h1.symm hc
        · exact h1
      have := ih hcs
      simp only [stringsCount, if_neg hc]
      omega

/-- The corpus has as many entries as the content has newlines. -/
theorem splitFortunes_length (buff : GoString) :
    (splitFortunes buff).length = stringsCount '\n' buff := by
  simp [splitFortunes, stringsSplit_length]

/-- Appending a newline-terminated line to a content that is empty or ends
with a newline appends one entry to the corpus. -/
theorem splitFortunes_append_line (old f : GoString)
    (hold : old = [] ∨ old.getLast? = some '\n') (hnl : '\n' ∉ f) :
    splitFortunes (old ++ f ++ ['\n']) = splitFortunes old ++ [f] := by
  have hf : stringsSplit (f ++ ['\n']) '\n' = [f, []] := by
    rw [stringsSplit_append_sep, stringsSplit_of_not_mem _ f hnl, stringsSplit_nil]
    rfl
  rcases hold with h | h
  · subst h
    simp [splitFortunes, hf, stringsSplit_nil]
  · obtain ⟨o, rfl⟩ : ∃ o, old = o ++ ['\n'] := by
      rcases List.eq_nil_or_concat old with h0 | ⟨o, c, rfl⟩
      · subst h0
        simp at h
      · have hc : c = '\n' := by
          simpa [List.concat_eq_append, List.getLast?_append, Option.or] using h
        exact ⟨o, by simp [hc]⟩
    have h1 : o ++ ['\n'] ++ f ++ ['\n'] = o ++ '\n' :: (f ++ ['\n']) := by simp
    have h2 : stringsSplit (o ++ ['\n']) '\n' = stringsSplit o '\n' ++ [[]] := by
      rw [stringsSplit_append_sep, stringsSplit_nil]
    simp only [splitFortunes, h1, h2, stringsSplit_append_sep, hf]
    simp [List.take_append_eq_append_take]

/-! ## Lemmas on the file system -/

theorem FileSystem.read_write (fs : FileSystem) (path old content : GoString)
    (h : fs.read path = some old) : (FileSystem.write fs path content).read path = some content := by
  induction fs with
  | nil => simp [FileSystem.read] at h
  | cons e es ih =>
    by_cases he : e.1 = path
    · simp [FileSystem.read, FileSystem.write, he]
    · have h1 : FileSystem.read es path = some old := by
        simpa [FileSystem.read, List.find?_cons, he] using h
      have h2 := ih h1
      simpa [FileSystem.read, FileSystem.write, List.find?_cons, he] using h2

/-! ## The append handler -/

/-- C6, as stated, fails: the form value " " is whitespace only, yet
`addFortune` answers 201 and appends " \n" to the file. -/
theorem addFortune_whitespace_appended :
    " ".toList.all Char.isWhitespace = true ∧
    addFortune [] [("./fortune.txt".toList, "a\n".toList)] Faults.none
        [("fortune".toList, " ".toList)]
      = (.json StatusCreated
          [("message".toList, .str "Fortune added successfully".toList)],
         [("./fortune.txt".toList, "a\n \n".toList)]) := by
  decide

/-- C6, amended: for every form value of the field `fortune` that is empty
(the field absent or the empty string), `addFortune` answers 400 and performs
no write: the file system is unchanged. -/
theorem addFortune_empty_rejected (env : Values) (fs : FileSystem)
    (faults : Faults) (form : Values) (h : PostForm form "fortune".toList = []) :
    addFortune env fs faults form
      = (.json StatusBadRequest [("error".toList, .str "Fortune cannot be empty".toList)], fs) := by
  unfold addFortune
  simp only [h]
  simp

/-- An instance of `addFortune_empty_rejected` at a concrete input. -/
theorem addFortune_empty_rejected_witness :
    addFortune [] [("./fortune.txt".toList, "a\n".toList)] Faults.none
        [("fortune".toList, [])]
      = (.json StatusBadRequest [("error".toList, .str "Fortune cannot be empty".toList)],
         [("./fortune.txt".toList, "a\n".toList)]) ∧
    addFortune [] [("./fortune.txt".toList, "a\n".toList)] Faults.none []
      = (.json StatusBadRequest [("error".toList, .str "Fortune cannot be empty".toList)],
         [("./fortune.txt".toList, "a\n".toList)]) :=
  ⟨addFortune_empty_rejected [] [("./fortune.txt".toList, "a\n".toList)] Faults.none
      [("fortune".toList, [])] (by decide),
   addFortune_empty_rejected [] [("./fortune.txt".toList, "a\n".toList)] Faults.none
      [] (by decide)⟩

/-- C7: with `FORTUNE` unset and the flag `-fortune=./other.txt`, the backing
file `./other.txt` holds "b\n" and the corpus is `["b"]`.  `addFortune` with
the accepted fortune "test quote" answers 201, yet the backing file is still
"b\n" and reloads as `["b"]`: the line was appended to `./fortune.txt`. -/
theorem addFortune_backing_file_eval :
    Server.backingFile
        ⟨["b".toList], [], some "./other.txt".toList,
         [("./fortune.txt".toList, "a\n".toList), ("./other.txt".toList, "b\n".toList)]⟩
      = "./other.txt".toList ∧
    Server.reload
        ⟨["b".toList], [], some "./other.txt".toList,
         [("./fortune.txt".toList, "a\n".toList), ("./other.txt".toList, "b\n".toList)]⟩
      = some ["b".toList] ∧
    (Server.addFortune
        ⟨["b".toList], [], some "./other.txt".toList,
         [("./fortune.txt".toList, "a\n".toList), ("./other.txt".toList, "b\n".toList)]⟩
        Faults.none [("fortune".toList, "test quote".toList)]).1
      = .json StatusCreated [("message".toList, .str "Fortune added successfully".toList)] ∧
    (Server.addFortune
        ⟨["b".toList], [], some "./other.txt".toList,
         [("./fortune.txt".toList, "a\n".toList), ("./other.txt".toList, "b\n".toList)]⟩
        Faults.none [("fortune".toList, "test quote".toList)]).2.fs.read "./other.txt".toList
      = some "b\n".toList ∧
    (Server.addFortune
        ⟨["b".toList], [], some "./other.txt".toList,
         [("./fortune.txt".toList, "a\n".toList), ("./other.txt".toList, "b\n".toList)]⟩
        Faults.none [("fortune".toList, "test quote".toList)]).2.reload
      = some ["b".toList] ∧
    (Server.addFortune
        ⟨["b".toList], [], some "./other.txt".toList,
         [("./fortune.txt".toList, "a\n".toList), ("./other.txt".toList, "b\n".toList)]⟩
        Faults.none [("fortune".toList, "test quote".toList)]).2.fs.read "./fortune.txt".toList
      = some "a\ntest quote\n".toList := by
  decide

/-- Append then reload, when the backing source is the file `addFortune`
opens (the flag `-fortune` absent, or naming the path `defaultFortune()`
returns).  For every content `old` of the backing file that is empty or ends
with "\n", and every non-empty fortune `f` without a newline sent as the form
field `fortune`: the run without an I/O failure answers 201; every run that
answers 201 leaves the backing file as `old ++ f ++ "\n"`; the corpus reloads
as `loadFortunes(old)` before the run and as `loadFortunes(old) ++ [f]` after
it; and the corpus held by the sampling handlers is the same after the run. -/
theorem addFortune_append_then_reload_same_path (sv : Server) (faults : Faults)
    (form : Values) (f old : GoString)
    (hpath : sv.backingFile = defaultFortune sv.env)
    (hform : PostForm form "fortune".toList = f)
    (hread : sv.fs.read sv.backingFile = some old)
    (hold : old = [] ∨ old.getLast? = some '\n') (hf : f ≠ []) (hnl : '\n' ∉ f) :
    (faults = Faults.none → (sv.addFortune faults form).1.status = StatusCreated) ∧
    ((sv.addFortune faults form).1.status = StatusCreated →
      (sv.addFortune faults form).2.fs.read sv.backingFile = some (old ++ f ++ ['\n']) ∧
      sv.reload = some (splitFortunes old) ∧
      (sv.addFortune faults form).2.reload = some (splitFortunes old ++ [f])) ∧
    (sv.addFortune faults form).2.fortunes = sv.fortunes ∧
    (sv.addFortune faults form).2.backingFile = sv.backingFile := by
  obtain ⟨fortunes, env, flagFortune, fs⟩ := sv
  simp only [Server.backingFile] at hpath hread
  simp only [Server.backingFile, Server.reload, mainFortunes]
  rw [hpath] at hread
  have hw := FileSystem.read_write fs (defaultFortune env) old (old ++ (f ++ ['\n'])) hread
  have hs := splitFortunes_append_line old f hold hnl
  rw [List.append_assoc] at hs
  obtain ⟨openErr, writeErr⟩ := faults
  unfold Server.addFortune addFortune
  simp only [hform, hpath]
  refine ⟨?_, ?_, trivial, trivial⟩
  · intro h
    simp only [Faults.none, Faults.mk.injEq] at h
    obtain ⟨rfl, rfl⟩ := h
    simp [hf, hread, Response.status]
  · cases openErr with
    | some e =>
      simp [hf, hread, Response.status, StatusInternalServerError, StatusCreated]
    | none =>
      cases writeErr with
      | some w =>
        simp [hf, hread, Response.status, StatusInternalServerError, StatusCreated]
      | none =>
        intro _
        simp [hf, hread, loadFortunes, hw, hs]

/-- An instance of `addFortune_append_then_reload_same_path` at a concrete input. -/
theorem addFortune_append_then_reload_same_path_witness :
    (Server.addFortune
        ⟨["a".toList], [], none, [("./fortune.txt".toList, "a\n".toList)]⟩
        Faults.none [("fortune".toList, "test quote".toList)]).1.status = StatusCreated ∧
    (Server.addFortune
        ⟨["a".toList], [], none, [("./fortune.txt".toList, "a\n".toList)]⟩
        Faults.none [("fortune".toList, "test quote".toList)]).2.fs.read "./fortune.txt".toList
      = some "a\ntest quote\n".toList ∧
    (Server.addFortune
        ⟨["a".toList], [], none, [("./fortune.txt".toList, "a\n".toList)]⟩
        Faults.none [("fortune".toList, "test quote".toList)]).2.reload
      = some ["a".toList, "test quote".toList] :=
  have h := addFortune_append_then_reload_same_path
    ⟨["a".toList], [], none, [("./fortune.txt".toList, "a\n".toList)]⟩ Faults.none
    [("fortune".toList, "test quote".toList)] "test quote".toList "a\n".toList
    (by decide) (by decide) (by decide) (by decide) (by decide) (by decide)
  ⟨h.1 rfl, (h.2.1 (h.1 rfl)).1, (h.2.1 (h.1 rfl)).2.2⟩

/-- C8: with `FORTUNE` unset and the flag `-fortune=./other.txt`, `main` loads
the corpus from `./other.txt`, while `addFortune` opens and appends to
`./fortune.txt`; the file the corpus came from is left as it was. -/
theorem addFortune_ignores_flag_eval :
    fortuneFile [] (some "./other.txt".toList) = "./other.txt".toList ∧
    defaultFortune [] = "./fortune.txt".toList ∧
    mainFortunes
        [("./fortune.txt".toList, "a\n".toList), ("./other.txt".toList, "b\n".toList)]
        [] (some "./other.txt".toList) = some ["b".toList] ∧
    addFortune []
        [("./fortune.txt".toList, "a\n".toList), ("./other.txt".toList, "b\n".toList)]
        Faults.none [("fortune".toList, "x".toList)]
      = (.json StatusCreated
          [("message".toList, .str "Fortune added successfully".toList)],
         [("./fortune.txt".toList, "a\nx\n".toList), ("./other.txt".toList, "b\n".toList)]) := by
  decide

/-- Without the flag, the path `main` loads from is the path `addFortune` opens. -/
theorem fortuneFile_without_flag (env : Values) :
    fortuneFile env none = defaultFortune env := rfl

/-! ## The not-found handler -/

/-- C9: `notFound` branches on the `Accept` header.  When the header contains
"text/html" the response is a redirect to `/static/404.html` and no JSON body
is written; otherwise the response has status 404 and a JSON body with the
timestamp and an error message that contains the requested URL literally. -/
theorem notFound_branches (accept url now : GoString) :
    ("text/html".toList <:+: accept →
      notFound accept url now
        = .redirect StatusPermanentRedirect "/static/404.html".toList) ∧
    (¬ "text/html".toList <:+: accept →
      ∃ msg, notFound accept url now
          = .json StatusNotFound
              [("timestamp".toList, .str now), ("error".toList, .str msg)] ∧
        url <:+: msg ∧ StatusNotFound = 404) := by
  constructor
  · intro h
    have hc := (stringsContains_iff accept "text/html".toList).mpr h
    simp only [notFound, hc, ↓reduceIte]
  · intro h
    have hc : stringsContains accept "text/html".toList = false := by
      cases hb : stringsContains accept "text/html".toList with
      | false => rfl
      | true => exact absurd ((stringsContains_iff _ _).mp hb) h
    refine ⟨"Resource not found: ".toList ++ url, ?_, ?_, rfl⟩
    · simp only [notFound, hc, Bool.false_eq_true, ↓reduceIte]
    · exact (List.suffix_append _ _).isInfix

/-- An instance of `notFound_branches` at a concrete input. -/
theorem notFound_branches_witness :
    notFound "text/html,application/xhtml+xml".toList "/nope".toList "T".toList
        = .redirect StatusPermanentRedirect "/static/404.html".toList ∧
    ∃ msg, notFound "application/json".toList "/nope".toList "T".toList
        = .json StatusNotFound
            [("timestamp".toList, .str "T".toList), ("error".toList, .str msg)] ∧
      "/nope".toList <:+: msg ∧ StatusNotFound = 404 :=
  ⟨(notFound_branches "text/html,application/xhtml+xml".toList "/nope".toList "T".toList).1
      ((stringsContains_iff _ _).mp (by decide)),
   (notFound_branches "application/json".toList "/nope".toList "T".toList).2
      (fun h => absurd ((stringsContains_iff _ _).mpr h) (by decide))⟩

/-! ## The page handler and the empty corpus -/

/-- C10, as stated, fails: the empty file is readable, `loadFortunes` hands
the empty corpus to the handlers without rejecting it, and the page handler
then panics in `getFortunes(corpus, 1)`. -/
theorem empty_corpus_not_rejected :
    loadFortunes [("./fortune.txt".toList, [])] "./fortune.txt".toList = some [] ∧
    List.Perm ([] : List Nat) (List.range ([] : List GoString).length) ∧
    mkMVCHandler [] [] = none := by
  decide

/-- C10, amended: for every readable file content with at least one newline
the corpus `loadFortunes` hands to the handlers is non-empty, and the page
handler, which samples with `getFortunes(corpus, 1)` and reads element 0, does
not index out of range: it answers 200 with a fortune of the corpus. -/
theorem page_handler_in_range (fs : FileSystem) (path buff : GoString) (perm : List Nat)
    (hread : fs.read path = some buff) (hnl : '\n' ∈ buff)
    (hperm : perm.Perm (List.range (splitFortunes buff).length)) :
    ∃ corpus, loadFortunes fs path = some corpus ∧ corpus ≠ [] ∧
      ∃ s ∈ corpus, getFortunes perm corpus 1 = some [s] ∧
        mkMVCHandler corpus perm
          = some (.html StatusOK "index".toList [("fortuneText".toList, .str s)]) := by
  have hpos : 0 < (splitFortunes buff).length := by
    rw [splitFortunes_length]
    exact stringsCount_pos_of_mem _ _ hnl
  obtain ⟨hlen, hrange, -⟩ := perm_range_facts perm _ hperm
  obtain ⟨r, hr, hrl, hmap⟩ := getFortunes_spec perm (splitFortunes buff) 1 hrange (by omega)
  obtain ⟨s, rfl⟩ := List.length_eq_one.mp hrl
  have hmem : s ∈ splitFortunes buff := by
    have h1 : some s ∈ [s].map some := by simp
    rw [hmap] at h1
    obtain ⟨j, -, hj⟩ := List.mem_map.mp h1
    exact List.getElem?_mem hj
  have hr1 : getFortunes perm (splitFortunes buff) 1 = some [s] := by simpa using hr
  refine ⟨splitFortunes buff, by simp [loadFortunes, hread], ?_, s, hmem, hr1, ?_⟩
  · exact List.ne_nil_of_length_pos hpos
  · simp [mkMVCHandler, hr1]

/-- An instance of `page_handler_in_range` at a concrete input. -/
theorem page_handler_in_range_witness :
    ∃ corpus, loadFortunes [("f.txt".toList, "a\nb\n".toList)] "f.txt".toList = some corpus ∧
      corpus ≠ [] ∧
      ∃ s ∈ corpus, getFortunes [1, 0] corpus 1 = some [s] ∧
        mkMVCHandler corpus [1, 0]
          = some (.html StatusOK "index".toList [("fortuneText".toList, .str s)]) :=
  page_handler_in_range [("f.txt".toList, "a\nb\n".toList)] "f.txt".toList "a\nb\n".toList
    [1, 0] (by decide) (by decide) (by decide)

end GoFortune
